import Mathlib

/-!
# Verification of the SMEFiT reweighting/unweighting pipeline

Shallow embedding of `src/BayesianRW/SMEFiT_rw_unw.py`.  Machine floats are
modelled as exact real numbers; numpy arrays as Lean lists.  Each definition
mirrors the corresponding line(s) of the source script.
-/

namespace BayesianRW

open Real List

/-! ## WeightEngine: `calculate_weights` (lines 149-155) -/

/-- Line 151: element-wise unnormalized weights
`(chi2/(s**2))**(1/2*(k-1)) * exp(-1/2*chi2/(s**2))` over the paired arrays
`chi2_all_reps` and `n_datapoints`. -/
noncomputable def unnormalized_weights (chi2 : List ℝ) (nd : List ℤ) (s : ℝ) : List ℝ :=
  List.zipWith
    (fun (c : ℝ) (k : ℤ) =>
      (c / s ^ 2) ^ ((1 / 2 : ℝ) * ((k : ℝ) - 1)) * Real.exp (-(1 / 2) * c / s ^ 2))
    chi2 nd

/-- Lines 149-155: normalized weights `w / (sum w / n_reps)` where
`n_reps` is the number of replicas (the array length). -/
noncomputable def calculate_weights (chi2 : List ℝ) (nd : List ℤ) (s : ℝ) : List ℝ :=
  let unnorm := unnormalized_weights chi2 nd s
  let normalization := unnorm.sum / (chi2.length : ℝ)
  unnorm.map (fun w => w / normalization)

/-! ## Clamping of tiny weights (lines 160-163) -/

/-- Line 161: `np.where(nnpdf_weights < 1.0e-300)` — indices of weights
strictly below the threshold. -/
noncomputable def zero_weights (W : List ℝ) : List ℕ :=
  (List.range W.length).filter (fun i => decide (W.getD i 0 < 1e-300))

/-- Semantics of `np.put(a, idxs, v)`: entries at the listed indices are
replaced by `v`, all others kept. -/
noncomputable def np_put (W : List ℝ) (idxs : List ℕ) (v : ℝ) : List ℝ :=
  (List.range W.length).map (fun i => if i ∈ idxs then v else W.getD i 0)

/-- Line 162: `np.put(nnpdf_weights, zero_weights, 1e-300)`. -/
noncomputable def clamped_weights (W : List ℝ) : List ℝ :=
  np_put W (zero_weights W) 1e-300

/-- Line 163: the reported number of replaced weights, `len(zero_weights)`. -/
noncomputable def zero_weights_count (W : List ℝ) : ℕ :=
  (zero_weights W).length

/-! ## Effective sample size (line 170) -/

/-- Line 170: `n_eff = exp(1/n_reps * sum(W * log(n_reps/W)))`. -/
noncomputable def n_eff (W : List ℝ) : ℝ :=
  Real.exp ((1 / (W.length : ℝ)) * (W.map (fun w => w * Real.log ((W.length : ℝ) / w))).sum)

/-! ## Resampler: unweighting (lines 186-224) -/

/-- `np.heaviside(x, 1.0)`: `0` for negative arguments, `1` otherwise. -/
noncomputable def heaviside (x : ℝ) : ℝ :=
  if x < 0 then 0 else 1

/-- Line 187: per-replica probabilities `probs = nnpdf_weights / n_reps`. -/
noncomputable def probs (W : List ℝ) : List ℝ :=
  W.map (fun w => w / (W.length : ℝ))

/-- Lines 190-194: cumulative probabilities; `probsCumul W k` is the sum of
the first `k` entries of `probs W` (so `probsCumul W 0 = 0`). -/
noncomputable def probsCumul (W : List ℝ) (k : ℕ) : ℝ :=
  ((probs W).take k).sum

/-- Number of iterations of `np.arange(1, U+1)` (line 207): `⌈U⌉` slots. -/
noncomputable def slotCount (U : ℝ) : ℕ := ⌈U⌉₊

/-- Lines 209-215: the contribution (0.0 or 1.0) of original replica `i`
(1-based) for target slot `t`, as a product of two heaviside factors. -/
noncomputable def unwContrib (W : List ℝ) (U : ℝ) (i t : ℕ) : ℝ :=
  if i = 1 then
    heaviside ((t : ℝ) / U - 0) * heaviside (probsCumul W 1 - (t : ℝ) / U)
  else
    heaviside ((t : ℝ) / U - probsCumul W (i - 1)) * heaviside (probsCumul W i - (t : ℝ) / U)

/-- Line 219: integer multiplicity of replica `i`, the `dtype=int` sum of its
per-slot contributions over all slots of `np.arange(1, U+1)`. -/
noncomputable def multInt (W : List ℝ) (U : ℝ) (i : ℕ) : ℤ :=
  ∑ t in Finset.Icc 1 (slotCount U), ⌊unwContrib W U i t⌋

/-- Line 224 aggregate: total of the integer multiplicities over all replicas. -/
noncomputable def sumMult (W : List ℝ) (U : ℝ) : ℤ :=
  ∑ i in Finset.Icc 1 W.length, multInt W U i

/-- Lines 222-223: the assertion
`np.round(np.sum(unw_weights)) == np.floor(unw_n_reps)`; when this
proposition is false the script aborts with the invariant-violation message. -/
noncomputable def unwSumCheck (W : List ℝ) (U : ℝ) : Prop :=
  round ((sumMult W U : ℝ)) = ⌊U⌋

/-! ## MomentEngine (lines 128-131, 230-233, 272-275) -/

/-- `np.mean` of a 1-d array. -/
noncomputable def sampleMean (xs : List ℝ) : ℝ :=
  xs.sum / (xs.length : ℝ)

/-- `np.sum((xs - mean)**2)`: total squared deviation from the mean. -/
noncomputable def sumSqDev (xs : List ℝ) : ℝ :=
  (xs.map (fun x => (x - sampleMean xs) ^ 2)).sum

/-- Lines 130 / 274: per-parameter sample variance
`1/(n_reps-1) * sum((x - mean)**2)` with `n_reps` the number of samples. -/
noncomputable def sample_variance (xs : List ℝ) : ℝ :=
  1 / ((xs.length : ℝ) - 1) * sumSqDev xs

/-- Line 131: prior standard deviation, `sqrt` of the sample variance. -/
noncomputable def prior_st_devs (xs : List ℝ) : ℝ :=
  Real.sqrt (sample_variance xs)

/-- Line 198 and line 232: the variance of the unweighted ensemble uses the
divisor `unw_n_reps - 1` where `unw_n_reps = n_eff` (the fractional
effective sample size), applied to the unweighted coefficient list. -/
noncomputable def unw_variances (W : List ℝ) (unwCoeffs : List ℝ) : ℝ :=
  1 / (n_eff W - 1) * sumSqDev unwCoeffs

/-- Modelled from the spec: the spec's variance divisor for the unweighted
set, `(effective_N - 1)` with `effective_N = floor(N_eff)` the target
unweighted count; written from the spec's words for comparison with the
source definition `unw_variances`. -/
noncomputable def unwVarianceSpecFloor (W : List ℝ) (unwCoeffs : List ℝ) : ℝ :=
  1 / ((⌊n_eff W⌋ : ℝ) - 1) * sumSqDev unwCoeffs

/-! ## ValidationEngine (lines 278-289) -/

/-- Lines 278-280 (and 282-284): reduction of standard deviations
`1 - post/prior`, with negative values replaced by `0`. -/
noncomputable def reduction_poster (prior post : ℝ) : ℝ :=
  if 1 - post / prior < 0 then 0 else 1 - post / prior

/-- Line 287: indices with KS statistic strictly above the level. -/
noncomputable def ops_satisfy_ks (ks : List ℝ) (lvl : ℝ) : List ℕ :=
  (List.range ks.length).filter (fun i => decide (lvl < ks.getD i 0))

/-- Line 288: indices with reduction strictly above the level. -/
noncomputable def ops_satisfy_red (red : List ℝ) (lvl : ℝ) : List ℕ :=
  (List.range red.length).filter (fun i => decide (lvl < red.getD i 0))

/-- Line 289: `np.intersect1d` of the two index sets (membership semantics). -/
noncomputable def constr_op_nums (ks red : List ℝ) (ksLvl redLvl : ℝ) : List ℕ :=
  (ops_satisfy_ks ks ksLvl) ∩ (ops_satisfy_red red redLvl)

end BayesianRW

namespace BayesianRW

/-! ## Theorems -/

/-- Sum of a list divided elementwise by a constant. -/
lemma sum_map_div (l : List ℝ) (c : ℝ) : (l.map (fun x => x / c)).sum = l.sum / c := by
  induction l with
  | nil => simp
  | cons a l ih => simp [ih, add_div]

/-- The element of the unnormalized-weight array at a valid index. -/
lemma unnormalized_weights_getD (chi2 : List ℝ) (nd : List ℤ) (s : ℝ) (i : ℕ)
    (h1 : i < chi2.length) (h2 : i < nd.length) :
    (unnormalized_weights chi2 nd s).getD i 0 =
      (chi2.getD i 0 / s ^ 2) ^ ((1 / 2 : ℝ) * ((nd.getD i 0 : ℝ) - 1)) *
        Real.exp (-(1 / 2) * chi2.getD i 0 / s ^ 2) := by
  have hz : i < (unnormalized_weights chi2 nd s).length := by
    rw [unnormalized_weights, List.length_zipWith]
    exact lt_min h1 h2
  rw [List.getD_eq_getElem _ _ hz, List.getD_eq_getElem _ _ h1, List.getD_eq_getElem _ _ h2]
  simp only [unnormalized_weights, List.getElem_zipWith]

/-- Claim C3: each normalized weight is the unnormalized weight
`(chi/s^2)^((k-1)/2) * exp(-chi/(2*s^2))` divided by `(sum w)/N`, and the
normalized weights sum to exactly `N`. -/
theorem c3_computeWeights (chi2 : List ℝ) (nd : List ℤ) (s : ℝ)
    (hlen : nd.length = chi2.length)
    (hS : (unnormalized_weights chi2 nd s).sum ≠ 0) :
    (∀ i, i < chi2.length →
        (calculate_weights chi2 nd s).getD i 0 =
          (chi2.getD i 0 / s ^ 2) ^ (((nd.getD i 0 : ℝ) - 1) / 2) *
              Real.exp (-(chi2.getD i 0) / (2 * s ^ 2)) /
            ((unnormalized_weights chi2 nd s).sum / (chi2.length : ℝ))) ∧
      (calculate_weights chi2 nd s).sum = (chi2.length : ℝ) := by
  have hzlen : (unnormalized_weights chi2 nd s).length = chi2.length := by
    rw [unnormalized_weights, List.length_zipWith, hlen, min_self]
  constructor
  · intro i hi
    have hiu : i < (unnormalized_weights chi2 nd s).length := by rw [hzlen]; exact hi
    have hic : i < chi2.length := hi
    have hin : i < nd.length := by rw [hlen]; exact hi
    have hmap : i < (calculate_weights chi2 nd s).length := by
      simp only [calculate_weights, List.length_map, hzlen]
      exact hi
    rw [List.getD_eq_getElem _ _ hmap]
    have hel : (calculate_weights chi2 nd s).get ⟨i, hmap⟩ =
        (unnormalized_weights chi2 nd s).getD i 0 /
          ((unnormalized_weights chi2 nd s).sum / (chi2.length : ℝ)) := by
      simp only [calculate_weights, List.get_eq_getElem, List.getElem_map]
      rw [List.getD_eq_getElem _ _ hiu]
    rw [show (calculate_weights chi2 nd s)[i] =
        (calculate_weights chi2 nd s).get ⟨i, hmap⟩ from rfl, hel,
      unnormalized_weights_getD chi2 nd s i hic hin]
    have hexp : (1 / 2 : ℝ) * ((nd.getD i 0 : ℝ) - 1) = ((nd.getD i 0 : ℝ) - 1) / 2 := by
      ring
    have harg : -(1 / 2 : ℝ) * chi2.getD i 0 / s ^ 2 = -(chi2.getD i 0) / (2 * s ^ 2) := by
      ring
    rw [hexp, harg]
  · show (List.map _ (unnormalized_weights chi2 nd s)).sum = _
    rw [sum_map_div]
    rw [div_div_eq_mul_div, mul_comm, mul_div_assoc, div_self hS, mul_one]

/-- Witness for C3 on the one-replica input `chi2 = [2]`, `k = [1]`, `s = 1`. -/
theorem c3_computeWeights_witness :
    (∀ i, i < ([2] : List ℝ).length →
        (calculate_weights [2] [1] 1).getD i 0 =
          (([2] : List ℝ).getD i 0 / (1 : ℝ) ^ 2) ^ (((([1] : List ℤ).getD i 0 : ℝ) - 1) / 2) *
              Real.exp (-(([2] : List ℝ).getD i 0) / (2 * (1 : ℝ) ^ 2)) /
            ((unnormalized_weights [2] [1] 1).sum / (([2] : List ℝ).length : ℝ))) ∧
      (calculate_weights [2] [1] 1).sum = (([2] : List ℝ).length : ℝ) := by
  refine c3_computeWeights [2] [1] 1 (by norm_num) ?_
  have hsum : (unnormalized_weights [2] [1] 1).sum = Real.exp (-1) := by
    simp only [unnormalized_weights, List.zipWith_cons_cons, List.zipWith_nil_right,
      List.sum_cons, List.sum_nil, add_zero]
    have h0 : (1 / 2 : ℝ) * (((1 : ℤ) : ℝ) - 1) = 0 := by norm_num
    rw [h0, Real.rpow_zero, one_mul]
    congr 1
    norm_num
  rw [hsum]
  exact Real.exp_ne_zero _

/-- Claim C6 counterexample: on the empty input (`N = 0`) `calculate_weights`
returns the empty list normally; no `InvalidInputError` is raised. -/
theorem c6_counterexample : calculate_weights [] [] 1 = [] := by
  simp [calculate_weights, unnormalized_weights]

/-- Claim C6 amended: `calculate_weights` performs no input validation and
cannot fail: for every input — including `N = 0`, negative chi-squared
values, or datapoint counts below 1 — it returns a list of one weight per
paired input entry. -/
theorem c6_no_validation (chi2 : List ℝ) (nd : List ℤ) (s : ℝ) :
    (calculate_weights chi2 nd s).length = min chi2.length nd.length := by
  simp only [calculate_weights, List.length_map]
  rw [unnormalized_weights, List.length_zipWith]

/-- Membership in the replaced-index list of line 161. -/
lemma mem_zero_weights (W : List ℝ) (i : ℕ) :
    i ∈ zero_weights W ↔ i < W.length ∧ W.getD i 0 < 1e-300 := by
  simp [zero_weights, List.mem_filter, List.mem_range]

/-- Pointwise description of the clamped weight array of lines 161-162. -/
lemma clamped_weights_getD (W : List ℝ) (i : ℕ) (hi : i < W.length) :
    (clamped_weights W).getD i 0 =
      if W.getD i 0 < 1e-300 then 1e-300 else W.getD i 0 := by
  have hlen2 : (clamped_weights W).length = W.length := by
    simp [clamped_weights, np_put]
  have hi2 : i < (clamped_weights W).length := by rw [hlen2]; exact hi
  rw [List.getD_eq_getElem _ _ hi2]
  simp only [clamped_weights, np_put, List.getElem_map, List.getElem_range]
  by_cases h : W.getD i 0 < 1e-300
  · rw [if_pos ((mem_zero_weights W i).mpr ⟨hi, h⟩), if_pos h]
  · rw [if_neg (fun hmem => h ((mem_zero_weights W i).mp hmem).2), if_neg h]

/-- Claim C7: a weight strictly below `1e-300` is replaced by exactly
`1e-300`, all other weights are unchanged, and the reported count
(`len(zero_weights)`, line 163) equals the number of entries actually
changed by the clamp. -/
theorem c7_clamp (W : List ℝ) (i : ℕ) (hi : i < W.length) :
    ((clamped_weights W).getD i 0 =
        if W.getD i 0 < 1e-300 then 1e-300 else W.getD i 0) ∧
      zero_weights_count W =
        ((List.range W.length).filter
          (fun j => decide ((clamped_weights W).getD j 0 ≠ W.getD j 0))).length := by
  refine ⟨clamped_weights_getD W i hi, ?_⟩
  have hpt : ∀ j, j < W.length →
      ((clamped_weights W).getD j 0 ≠ W.getD j 0 ↔ W.getD j 0 < 1e-300) := by
    intro j hj
    rw [clamped_weights_getD W j hj]
    by_cases h : W.getD j 0 < 1e-300
    · rw [if_pos h]
      constructor
      · intro _; exact h
      · intro _ he
        rw [he] at h
        exact lt_irrefl _ h
    · rw [if_neg h]
      constructor
      · intro hne
        exact absurd rfl hne
      · intro hlt
        exact absurd hlt h
  have hfe : (List.range W.length).filter
        (fun j => decide ((clamped_weights W).getD j 0 ≠ W.getD j 0)) =
      (List.range W.length).filter (fun j => decide (W.getD j 0 < 1e-300)) := by
    apply List.filter_congr
    intro j hj
    exact decide_eq_decide.mpr (hpt j (List.mem_range.mp hj))
  rw [hfe]
  rfl

/-- Witness for C7 on the weight vector `[0, 1]` at index `0`. -/
theorem c7_clamp_witness :
    ((clamped_weights [0, 1]).getD 0 0 =
        if ([0, 1] : List ℝ).getD 0 0 < 1e-300 then 1e-300
        else ([0, 1] : List ℝ).getD 0 0) ∧
      zero_weights_count [0, 1] =
        ((List.range ([0, 1] : List ℝ).length).filter
          (fun j => decide ((clamped_weights [0, 1]).getD j 0 ≠
            ([0, 1] : List ℝ).getD j 0))).length :=
  c7_clamp [0, 1] 0 (by norm_num)

/-- For a strictly positive real, `w - 1 ≤ w * log w`. -/
lemma sub_one_le_mul_log (w : ℝ) (hw : 0 < w) : w - 1 ≤ w * Real.log w := by
  have h := Real.log_le_sub_one_of_pos (show (0 : ℝ) < w⁻¹ by positivity)
  rw [Real.log_inv] at h
  have h2 : w * -Real.log w ≤ w * (w⁻¹ - 1) := mul_le_mul_of_nonneg_left h hw.le
  have h3 : w * w⁻¹ = 1 := mul_inv_cancel₀ (ne_of_gt hw)
  nlinarith [h2, h3]

/-- For a strictly positive real other than `1`, `w - 1 < w * log w`. -/
lemma sub_one_lt_mul_log (w : ℝ) (hw : 0 < w) (hne : w ≠ 1) :
    w - 1 < w * Real.log w := by
  have hinv : w⁻¹ ≠ 1 := fun h => hne (by
    have := congrArg (fun x => x⁻¹) h
    simpa using this)
  have h := Real.log_lt_sub_one_of_pos (show (0 : ℝ) < w⁻¹ by positivity) hinv
  rw [Real.log_inv] at h
  have h2 : w * -Real.log w < w * (w⁻¹ - 1) := (mul_lt_mul_left hw).mpr h
  have h3 : w * w⁻¹ = 1 := mul_inv_cancel₀ (ne_of_gt hw)
  nlinarith [h2, h3]

/-- Gibbs-type bound for lists: over positive entries,
`sum - length ≤ sum of w * log w`, with equality iff every entry is `1`. -/
lemma sum_mul_log_bound :
    ∀ (W : List ℝ), (∀ w ∈ W, 0 < w) →
      (W.sum - (W.length : ℝ) ≤ (W.map (fun w => w * Real.log w)).sum ∧
        (W.sum - (W.length : ℝ) = (W.map (fun w => w * Real.log w)).sum ↔
          ∀ w ∈ W, w = 1)) := by
  intro W
  induction W with
  | nil => intro _; simp
  | cons a l ih =>
    intro hpos
    have ha : 0 < a := hpos a (List.mem_cons_self a l)
    have hl : ∀ w ∈ l, 0 < w := fun w hw => hpos w (List.mem_cons_of_mem a hw)
    obtain ⟨ih1, ih2⟩ := ih hl
    have hstep := sub_one_le_mul_log a ha
    constructor
    · simp only [List.sum_cons, List.map_cons, List.length_cons]
      push_cast
      linarith
    · simp only [List.sum_cons, List.map_cons, List.length_cons, List.mem_cons]
      push_cast
      constructor
      · intro heq
        have ha1 : a = 1 := by
          by_contra hne
          have := sub_one_lt_mul_log a ha hne
          linarith
        have hl1 : l.sum - (l.length : ℝ) = (l.map (fun w => w * Real.log w)).sum := by
          rw [ha1] at heq
          simp only [Real.log_one, mul_zero, one_mul] at heq ⊢
          linarith [heq]
        rintro w (rfl | hw)
        · exact ha1
        · exact (ih2.mp hl1) w hw
      · intro hall
        have ha1 : a = 1 := hall a (Or.inl rfl)
        have hl1 : l.sum - (l.length : ℝ) = (l.map (fun w => w * Real.log w)).sum :=
          ih2.mpr (fun w hw => hall w (Or.inr hw))
        rw [ha1]
        simp only [Real.log_one, mul_zero, one_mul]
        linarith

/-- Splitting the entropy summand: for nonzero division base `N`,
`sum of w * log (N / w)` decomposes into `log N * sum - sum of w * log w`. -/
lemma sum_mul_log_div (N : ℝ) (hN : N ≠ 0) :
    ∀ (W : List ℝ), (∀ w ∈ W, w ≠ 0) →
      (W.map (fun w => w * Real.log (N / w))).sum =
        Real.log N * W.sum - (W.map (fun w => w * Real.log w)).sum := by
  intro W
  induction W with
  | nil => intro _; simp
  | cons a l ih =>
    intro hne
    have ha : a ≠ 0 := hne a (List.mem_cons_self a l)
    have hl : ∀ w ∈ l, w ≠ 0 := fun w hw => hne w (List.mem_cons_of_mem a hw)
    simp only [List.map_cons, List.sum_cons, ih hl]
    rw [Real.log_div hN ha]
    ring

/-- Claim C4: the Shannon-entropy effective sample size is strictly positive,
at most `N`, and equals `N` exactly when all weights are equal (for positive
weights summing to `N`). -/
theorem c4_effectiveSampleSize (W : List ℝ) (hlen : 0 < W.length)
    (hpos : ∀ w ∈ W, 0 < w) (hsum : W.sum = (W.length : ℝ)) :
    0 < n_eff W ∧ n_eff W ≤ (W.length : ℝ) ∧
      (n_eff W = (W.length : ℝ) ↔ ∀ w ∈ W, ∀ x ∈ W, w = x) := by
  set N : ℝ := (W.length : ℝ) with hN
  have hNpos : 0 < N := by rw [hN]; exact_mod_cast hlen
  have hNne : N ≠ 0 := ne_of_gt hNpos
  have hwne : ∀ w ∈ W, w ≠ 0 := fun w hw => ne_of_gt (hpos w hw)
  set T : ℝ := (W.map (fun w => w * Real.log w)).sum with hT
  have hdecomp : (W.map (fun w => w * Real.log (N / w))).sum = Real.log N * N - T := by
    rw [sum_mul_log_div N hNne W hwne, hsum]
  have harg : n_eff W = Real.exp (Real.log N - T / N) := by
    unfold n_eff
    rw [← hN, hdecomp]
    congr 1
    field_simp
  obtain ⟨hge, hiff⟩ := sum_mul_log_bound W hpos
  have hT0 : 0 ≤ T := by
    rw [hsum] at hge
    simpa using hge
  refine ⟨by rw [harg]; exact Real.exp_pos _, ?_, ?_⟩
  · rw [harg]
    calc Real.exp (Real.log N - T / N) ≤ Real.exp (Real.log N) := by
          apply Real.exp_le_exp.mpr
          have : 0 ≤ T / N := div_nonneg hT0 hNpos.le
          linarith
      _ = N := Real.exp_log hNpos
  · rw [harg]
    have hstep : Real.exp (Real.log N - T / N) = N ↔ T = 0 := by
      constructor
      · intro h
        have h2 : Real.exp (Real.log N - T / N) = Real.exp (Real.log N) := by
          rw [Real.exp_log hNpos]
          exact h
        have h3 := Real.exp_injective h2
        have hTN : T / N = 0 := by linarith
        exact (div_eq_zero_iff.mp hTN).resolve_right hNne
      · intro h
        rw [h, zero_div, sub_zero]
        exact Real.exp_log hNpos
    rw [hstep]
    have hall : T = 0 ↔ ∀ w ∈ W, w = 1 := by
      constructor
      · intro h0
        apply hiff.mp
        rw [hsum, hN, sub_self]
        exact h0.symm
      · intro h1
        have h2 := hiff.mpr h1
        rw [hsum, hN, sub_self] at h2
        exact h2.symm
    rw [hall]
    constructor
    · intro h w hw x hx
      rw [h w hw, h x hx]
    · intro h
      obtain ⟨a, haW⟩ := List.exists_mem_of_length_pos hlen
      have hrep : ∀ w ∈ W, w = a := fun w hw => h w hw a haW
      have hsum2 : W.sum = (W.length : ℝ) * a := by
        rw [List.sum_eq_card_nsmul W a hrep]
        simp [nsmul_eq_mul]
      have hNne2 : (W.length : ℝ) ≠ 0 := by
        rw [← hN]
        exact hNne
      have ha1 : a = 1 := by
        have h2 : (W.length : ℝ) = (W.length : ℝ) * a := by
          calc (W.length : ℝ) = W.sum := by rw [hsum, hN]
            _ = (W.length : ℝ) * a := hsum2
        have h3 : (W.length : ℝ) * 1 = (W.length : ℝ) * a := by
          rw [mul_one]
          exact h2
        exact (mul_left_cancel₀ hNne2 h3).symm
      intro w hw
      rw [hrep w hw, ha1]

/-- Witness for C4 on the uniform weight vector `[1, 1]`. -/
theorem c4_effectiveSampleSize_witness :
    0 < n_eff [1, 1] ∧ n_eff [1, 1] ≤ (([1, 1] : List ℝ).length : ℝ) ∧
      (n_eff [1, 1] = (([1, 1] : List ℝ).length : ℝ) ↔
        ∀ w ∈ ([1, 1] : List ℝ), ∀ x ∈ ([1, 1] : List ℝ), w = x) :=
  c4_effectiveSampleSize [1, 1] (by norm_num)
    (by intro w hw; rcases List.mem_cons.mp hw with rfl | hw2
        · norm_num
        · rcases List.mem_cons.mp hw2 with rfl | hw3
          · norm_num
          · exact absurd hw3 (List.not_mem_nil w))
    (by norm_num)

/-- Product of two heaviside factors as an indicator. -/
lemma heaviside_mul (a b : ℝ) :
    heaviside a * heaviside b = if 0 ≤ a ∧ 0 ≤ b then 1 else 0 := by
  unfold heaviside
  by_cases ha : a < 0
  · rw [if_pos ha, zero_mul, if_neg]
    intro hc
    exact absurd hc.1 (not_le.mpr ha)
  · rw [if_neg ha]
    by_cases hb : b < 0
    · rw [if_pos hb, mul_zero, if_neg]
      intro hc
      exact absurd hc.2 (not_le.mpr hb)
    · rw [if_neg hb, one_mul, if_pos ⟨not_lt.mp ha, not_lt.mp hb⟩]

/-- The cumulative probability of zero prefix is `0`. -/
lemma probsCumul_zero (W : List ℝ) : probsCumul W 0 = 0 := by
  simp [probsCumul]

/-- Cumulative probabilities are monotone when all weights are non-negative. -/
lemma probsCumul_mono (W : List ℝ) (hw : ∀ x ∈ W, 0 ≤ x) :
    Monotone (probsCumul W) := by
  have hp : ∀ x ∈ probs W, 0 ≤ x := by
    intro x hx
    obtain ⟨w, hwW, rfl⟩ := List.mem_map.mp hx
    exact div_nonneg (hw w hwW) (Nat.cast_nonneg _)
  apply monotone_nat_of_le_succ
  intro n
  unfold probsCumul
  rw [List.take_succ, List.sum_append]
  have h0 : 0 ≤ ((probs W)[n]?.toList).sum := by
    cases hn : (probs W)[n]? with
    | none => simp
    | some a =>
      have ha : a ∈ probs W := by
        obtain ⟨hlt, hEq⟩ := List.getElem?_eq_some.mp hn
        rw [← hEq]
        exact List.getElem_mem hlt
      simp only [Option.toList_some, List.sum_cons, List.sum_nil, add_zero]
      exact hp a ha
  linarith

/-- The full cumulative probability is `1` for a normalized weight vector. -/
lemma probsCumul_length (W : List ℝ) (hlen : 0 < W.length)
    (hsum : W.sum = (W.length : ℝ)) : probsCumul W W.length = 1 := by
  unfold probsCumul probs
  have h1 : (W.map (fun w => w / (W.length : ℝ))).take W.length =
      W.map (fun w => w / (W.length : ℝ)) := by
    apply List.take_of_length_le
    rw [List.length_map]
  rw [h1, sum_map_div, hsum]
  exact div_self (by exact_mod_cast ne_of_gt hlen)

/-- The heaviside product of lines 209-215 is the indicator of the closed
interval `[C_(i-1), C_i]` containing the slot point — inclusive at BOTH
boundaries. -/
lemma unwContrib_eq (W : List ℝ) (U : ℝ) (i t : ℕ) (hi : 1 ≤ i) :
    unwContrib W U i t =
      if probsCumul W (i - 1) ≤ (t : ℝ) / U ∧ (t : ℝ) / U ≤ probsCumul W i then 1
      else 0 := by
  unfold unwContrib
  by_cases h1 : i = 1
  · subst h1
    rw [if_pos rfl, heaviside_mul]
    refine if_congr ?_ rfl rfl
    rw [sub_zero, sub_nonneg]
    simp [probsCumul_zero]
  · rw [if_neg h1, heaviside_mul]
    refine if_congr ?_ rfl rfl
    rw [sub_nonneg, sub_nonneg]

/-- Each per-slot contribution has a non-negative integer part. -/
lemma multInt_nonneg (W : List ℝ) (U : ℝ) (i : ℕ) : 0 ≤ multInt W U i := by
  unfold multInt
  apply Finset.sum_nonneg
  intro t _
  rcases eq_or_ne i 1 with h | h
  · rw [unwContrib, if_pos h, heaviside_mul]
    split
    · simp
    · simp
  · rw [unwContrib, if_neg h, heaviside_mul]
    split
    · simp
    · simp

/-- The integer multiplicity as a sum of interval indicators. -/
lemma multInt_eq (W : List ℝ) (U : ℝ) (i : ℕ) (hi : 1 ≤ i) :
    multInt W U i =
      ∑ t in Finset.Icc 1 (slotCount U),
        (if probsCumul W (i - 1) ≤ (t : ℝ) / U ∧ (t : ℝ) / U ≤ probsCumul W i
          then (1 : ℤ) else 0) := by
  unfold multInt
  apply Finset.sum_congr rfl
  intro t _
  rw [unwContrib_eq W U i t hi]
  by_cases h : probsCumul W (i - 1) ≤ (t : ℝ) / U ∧ (t : ℝ) / U ≤ probsCumul W i
  · rw [if_pos h, if_pos h]
    exact Int.floor_one
  · rw [if_neg h, if_neg h]
    exact Int.floor_zero

/-- A point above the top cumulant lands in no bin. -/
lemma binSum_eq_zero (f : ℕ → ℝ) (x : ℝ) (N : ℕ) (hmono : Monotone f)
    (hx : f N < x) :
    (∑ i in Finset.Icc 1 N, if f (i - 1) ≤ x ∧ x ≤ f i then (1 : ℤ) else 0) = 0 := by
  apply Finset.sum_eq_zero
  intro i hi
  rw [if_neg]
  intro hc
  have h1 : f i ≤ f N := hmono (Finset.mem_Icc.mp hi).2
  linarith [hc.2]

/-- A point strictly inside the cumulative range, away from all interior
boundaries, lands in exactly one bin. -/
lemma binSum_eq_one (f : ℕ → ℝ) (x : ℝ) (hmono : Monotone f) :
    ∀ N : ℕ, f 0 < x → x ≤ f N → (∀ i, 1 ≤ i → i < N → x ≠ f i) →
      (∑ i in Finset.Icc 1 N, if f (i - 1) ≤ x ∧ x ≤ f i then (1 : ℤ) else 0) = 1 := by
  intro N
  induction N with
  | zero =>
    intro h0 hN _
    exact absurd (lt_of_lt_of_le h0 hN) (lt_irrefl _)
  | succ n ih =>
    intro h0 hN hties
    rw [Finset.sum_Icc_succ_top (Nat.succ_le_succ (Nat.zero_le n))]
    rcases lt_or_le (f n) x with hfn | hfn
    · rw [binSum_eq_zero f x n hmono hfn, if_pos]
      · norm_num
      · constructor
        · simp only [Nat.add_sub_cancel]
          exact hfn.le
        · exact hN
    · cases n with
      | zero => exact absurd (lt_of_lt_of_le h0 hfn) (lt_irrefl _)
      | succ m =>
        have hne : x ≠ f (m + 1) :=
          hties (m + 1) (Nat.succ_le_succ (Nat.zero_le m)) (Nat.lt_succ_self _)
        have hlt : x < f (m + 1) := lt_of_le_of_ne hfn hne
        rw [ih h0 hfn (fun i hi1 hi2 => hties i hi1 (Nat.lt_succ_of_lt hi2)), if_neg]
        · norm_num
        · intro hc
          have := hc.1
          simp only [Nat.add_sub_cancel] at this
          linarith

/-- Claim C1: the Resampler's integer multiplicities are non-negative; for a
normalized non-negative weight vector with no slot point hitting an interior
cumulative boundary, their total equals exactly `floor U`; and the line-222
assertion (whose failure aborts the run) holds precisely when the total
equals `floor U`. -/
theorem c1_resampler_sum (W : List ℝ) (U : ℝ)
    (hw : ∀ x ∈ W, 0 ≤ x) (hlen : 0 < W.length)
    (hsum : W.sum = (W.length : ℝ)) (hU : 0 < U)
    (hties : ∀ t ∈ Finset.Icc 1 (slotCount U), ∀ i, 1 ≤ i → i < W.length →
      probsCumul W i ≠ (t : ℝ) / U) :
    (∀ i, 0 ≤ multInt W U i) ∧ sumMult W U = ⌊U⌋ ∧
      (unwSumCheck W U ↔ sumMult W U = ⌊U⌋) := by
  have hmono : Monotone (probsCumul W) := probsCumul_mono W hw
  have hCN : probsCumul W W.length = 1 := probsCumul_length W hlen hsum
  refine ⟨fun i => multInt_nonneg W U i, ?_, ?_⟩
  · unfold sumMult
    have hswap : ∑ i in Finset.Icc 1 W.length, multInt W U i =
        ∑ t in Finset.Icc 1 (slotCount U), ∑ i in Finset.Icc 1 W.length,
          (if probsCumul W (i - 1) ≤ (t : ℝ) / U ∧ (t : ℝ) / U ≤ probsCumul W i
            then (1 : ℤ) else 0) := by
      calc ∑ i in Finset.Icc 1 W.length, multInt W U i
          = ∑ i in Finset.Icc 1 W.length, ∑ t in Finset.Icc 1 (slotCount U),
              (if probsCumul W (i - 1) ≤ (t : ℝ) / U ∧ (t : ℝ) / U ≤ probsCumul W i
                then (1 : ℤ) else 0) :=
            Finset.sum_congr rfl (fun i hi => multInt_eq W U i (Finset.mem_Icc.mp hi).1)
        _ = _ := Finset.sum_comm
    rw [hswap]
    have hterm : ∀ t ∈ Finset.Icc 1 (slotCount U),
        (∑ i in Finset.Icc 1 W.length,
          (if probsCumul W (i - 1) ≤ (t : ℝ) / U ∧ (t : ℝ) / U ≤ probsCumul W i
            then (1 : ℤ) else 0)) = if t ≤ ⌊U⌋₊ then 1 else 0 := by
      intro t ht
      obtain ⟨ht1, _⟩ := Finset.mem_Icc.mp ht
      by_cases htf : t ≤ ⌊U⌋₊
      · rw [if_pos htf]
        apply binSum_eq_one (probsCumul W) ((t : ℝ) / U) hmono W.length
        · rw [probsCumul_zero]
          have htpos : (0 : ℝ) < (t : ℝ) := by exact_mod_cast ht1
          exact div_pos htpos hU
        · rw [hCN]
          exact (div_le_one hU).mpr ((Nat.le_floor_iff hU.le).mp htf)
        · intro i hi1 hi2
          exact (hties t ht i hi1 hi2).symm
      · rw [if_neg htf]
        apply binSum_eq_zero (probsCumul W) _ _ hmono
        rw [hCN]
        have hUt : U < (t : ℝ) := (Nat.floor_lt hU.le).mp (not_le.mp htf)
        exact (one_lt_div hU).mpr hUt
    rw [Finset.sum_congr rfl hterm]
    have hKF : ⌊U⌋₊ ≤ slotCount U := Nat.floor_le_ceil U
    have hfilter : (Finset.Icc 1 (slotCount U)).filter (fun t => t ≤ ⌊U⌋₊) =
        Finset.Icc 1 ⌊U⌋₊ := by
      ext t
      simp only [Finset.mem_filter, Finset.mem_Icc]
      constructor
      · rintro ⟨⟨h1, _⟩, h2⟩
        exact ⟨h1, h2⟩
      · rintro ⟨h1, h2⟩
        exact ⟨⟨h1, le_trans h2 hKF⟩, h2⟩
    rw [Finset.sum_boole, hfilter, Nat.card_Icc]
    simp only [Nat.add_sub_cancel]
    exact Int.natCast_floor_eq_floor hU.le
  · unfold unwSumCheck
    constructor
    · intro h
      rwa [round_intCast] at h
    · intro h
      rw [round_intCast]
      exact h

/-- Witness for C1 on the weight vector `[1, 1]` with unweighting target
`U = 3/2` (no slot point hits the interior boundary `1/2`). -/
theorem c1_resampler_sum_witness :
    (∀ i, 0 ≤ multInt [1, 1] (3 / 2) i) ∧
      sumMult [1, 1] (3 / 2) = ⌊(3 / 2 : ℝ)⌋ ∧
      (unwSumCheck [1, 1] (3 / 2) ↔ sumMult [1, 1] (3 / 2) = ⌊(3 / 2 : ℝ)⌋) := by
  apply c1_resampler_sum
  · intro x hx
    rcases List.mem_cons.mp hx with rfl | hx2
    · norm_num
    · rcases List.mem_cons.mp hx2 with rfl | hx3
      · norm_num
      · exact absurd hx3 (List.not_mem_nil x)
  · norm_num
  · norm_num
  · norm_num
  · intro t ht i hi1 hi2
    have hi : i = 1 := by
      simp only [List.length_cons, List.length_nil] at hi2
      omega
    subst hi
    have hC1 : probsCumul [1, 1] 1 = 1 / 2 := by
      unfold probsCumul probs
      simp
    have hK : slotCount (3 / 2 : ℝ) = 2 := by
      unfold slotCount
      rw [show ((3 : ℝ) / 2) = (1.5 : ℝ) by norm_num]
      norm_num [Nat.ceil_eq_iff]
    rw [hK] at ht
    obtain ⟨ht1, ht2⟩ := Finset.mem_Icc.mp ht
    interval_cases t
    · rw [hC1]
      norm_num
    · rw [hC1]
      norm_num

/-- Claim C2 counterexample: at exact boundary equality (`W = [1, 1]`, target
`U = 2`, slot `t = 1`, point `1/2 = C_1`), the code gives a full count to
sample 2 as well as sample 1, although the claimed strict lower bound
`C_1 < 1/2` is false — the slot is NOT assigned to sample 1 only. -/
theorem c2_counterexample :
    unwContrib [1, 1] 2 2 1 = 1 ∧ unwContrib [1, 1] 2 1 1 = 1 ∧
      ¬ (probsCumul [1, 1] 1 < (1 : ℝ) / 2) := by
  have hC1 : probsCumul [1, 1] 1 = 1 / 2 := by
    unfold probsCumul probs
    simp
  have hC2 : probsCumul [1, 1] 2 = 1 := by
    unfold probsCumul probs
    simp
    norm_num
  refine ⟨?_, ?_, ?_⟩
  · rw [unwContrib_eq [1, 1] 2 2 1 (by norm_num), if_pos]
    rw [show (2 : ℕ) - 1 = 1 from rfl, hC1, hC2]
    push_cast
    norm_num
  · rw [unwContrib_eq [1, 1] 2 1 1 (le_refl 1), if_pos]
    rw [show (1 : ℕ) - 1 = 0 from rfl, probsCumul_zero, hC1]
    push_cast
    norm_num
  · rw [hC1]
    norm_num

/-- Claim C2 amended: sample `i` receives one count for slot `t` iff
`C_(i-1) ≤ t/U ≤ C_i` — inclusive at BOTH boundaries (with `C_0 = 0`), so at
exact boundary equality `C_i = t/U` the slot is counted for both sample `i`
and sample `i+1`. -/
theorem c2_binning_amended (W : List ℝ) (U : ℝ) (i t : ℕ) (hi : 1 ≤ i) :
    unwContrib W U i t =
        (if probsCumul W (i - 1) ≤ (t : ℝ) / U ∧ (t : ℝ) / U ≤ probsCumul W i
          then 1 else 0) ∧
      (probsCumul W i = (t : ℝ) / U → probsCumul W (i - 1) ≤ (t : ℝ) / U →
        (t : ℝ) / U ≤ probsCumul W (i + 1) →
        unwContrib W U i t = 1 ∧ unwContrib W U (i + 1) t = 1) := by
  refine ⟨unwContrib_eq W U i t hi, ?_⟩
  intro htie hlow hup
  constructor
  · rw [unwContrib_eq W U i t hi, if_pos ⟨hlow, htie.ge⟩]
  · rw [unwContrib_eq W U (i + 1) t (le_trans hi (Nat.le_succ i)), if_pos]
    simp only [Nat.add_sub_cancel]
    exact ⟨htie.le, hup⟩

/-- Witness for C2's amended statement at `W = [1, 1]`, `U = 2`, `i = 1`,
`t = 1`. -/
theorem c2_binning_amended_witness :
    unwContrib [1, 1] 2 1 1 =
        (if probsCumul [1, 1] (1 - 1) ≤ (1 : ℝ) / 2 ∧
            (1 : ℝ) / 2 ≤ probsCumul [1, 1] 1 then 1 else 0) ∧
      (probsCumul [1, 1] 1 = (1 : ℝ) / 2 →
        probsCumul [1, 1] (1 - 1) ≤ (1 : ℝ) / 2 →
        (1 : ℝ) / 2 ≤ probsCumul [1, 1] (1 + 1) →
        unwContrib [1, 1] 2 1 1 = 1 ∧ unwContrib [1, 1] 2 (1 + 1) 1 = 1) := by
  have h := c2_binning_amended [1, 1] 2 1 1 (le_refl 1)
  have hcast : ((1 : ℕ) : ℝ) / 2 = (1 : ℝ) / 2 := by norm_num
  rw [hcast] at h
  exact h

/-- Closed form of the effective sample size of `[1/2, 3/2, 1, 1]`. -/
lemma n_eff_c5_value :
    n_eff [1 / 2, 3 / 2, 1, 1] =
      Real.exp ((5 / 2) * Real.log 2 - (3 / 8) * Real.log 3) := by
  have h8 : Real.log 8 = 3 * Real.log 2 := by
    rw [show (8 : ℝ) = 2 ^ 3 by norm_num, Real.log_pow]
    push_cast
    ring
  have h83 : Real.log (8 / 3) = 3 * Real.log 2 - Real.log 3 := by
    rw [Real.log_div (by norm_num) (by norm_num), h8]
  have h4 : Real.log 4 = 2 * Real.log 2 := by
    rw [show (4 : ℝ) = 2 ^ 2 by norm_num, Real.log_pow]
    push_cast
    ring
  unfold n_eff
  simp only [List.length_cons, List.length_nil, List.map_cons, List.map_nil,
    List.sum_cons, List.sum_nil]
  norm_num
  rw [h8, h83, h4]
  ring

/-- The effective sample size of `[1/2, 3/2, 1, 1]` lies strictly between
`3` and `4`, so its floor is `3` while `n_eff` itself is larger. -/
lemma n_eff_c5_bounds :
    3 < n_eff [1 / 2, 3 / 2, 1, 1] ∧ n_eff [1 / 2, 3 / 2, 1, 1] < 4 := by
  rw [n_eff_c5_value]
  have h16_27 : 4 * Real.log 2 < 3 * Real.log 3 := by
    have h := Real.log_lt_log (by norm_num : (0 : ℝ) < 16) (by norm_num : (16 : ℝ) < 27)
    rw [show (16 : ℝ) = 2 ^ 4 by norm_num, show (27 : ℝ) = 3 ^ 3 by norm_num,
      Real.log_pow, Real.log_pow] at h
    push_cast at h
    linarith
  have h11_20 : 11 * Real.log 3 < 20 * Real.log 2 := by
    have h := Real.log_lt_log (by norm_num : (0 : ℝ) < 177147)
      (by norm_num : (177147 : ℝ) < 1048576)
    rw [show (177147 : ℝ) = 3 ^ 11 by norm_num, show (1048576 : ℝ) = 2 ^ 20 by norm_num,
      Real.log_pow, Real.log_pow] at h
    push_cast at h
    linarith
  constructor
  · have harg : Real.log 3 < (5 / 2) * Real.log 2 - (3 / 8) * Real.log 3 := by
      linarith
    calc (3 : ℝ) = Real.exp (Real.log 3) := (Real.exp_log (by norm_num)).symm
      _ < Real.exp ((5 / 2) * Real.log 2 - (3 / 8) * Real.log 3) :=
          Real.exp_lt_exp.mpr harg
  · have harg : (5 / 2) * Real.log 2 - (3 / 8) * Real.log 3 < Real.log 4 := by
      rw [show Real.log 4 = 2 * Real.log 2 by
        rw [show (4 : ℝ) = 2 ^ 2 by norm_num, Real.log_pow]; push_cast; ring]
      linarith
    calc Real.exp ((5 / 2) * Real.log 2 - (3 / 8) * Real.log 3)
        < Real.exp (Real.log 4) := Real.exp_lt_exp.mpr harg
      _ = 4 := Real.exp_log (by norm_num)

/-- Claim C5 counterexample: for the normalized weight vector
`[1/2, 3/2, 1, 1]` (sum 4, all positive) and unweighted coefficient list
`[0, 0, 3]`, the source's unweighted variance (divisor `n_eff - 1` with the
fractional `n_eff`, lines 198 and 232) differs from the spec's claimed
divisor `floor(n_eff) - 1`. -/
theorem c5_counterexample :
    unw_variances [1 / 2, 3 / 2, 1, 1] [0, 0, 3] ≠
      unwVarianceSpecFloor [1 / 2, 3 / 2, 1, 1] [0, 0, 3] := by
  obtain ⟨hgt, hlt⟩ := n_eff_c5_bounds
  have hfloor : ⌊n_eff [1 / 2, 3 / 2, 1, 1]⌋ = 3 := by
    rw [Int.floor_eq_iff]
    constructor
    · push_cast
      linarith
    · push_cast
      linarith
  have hss : sumSqDev [0, 0, 3] = 6 := by
    unfold sumSqDev sampleMean
    norm_num
  intro heq
  unfold unw_variances unwVarianceSpecFloor at heq
  rw [hss, hfloor] at heq
  have hrhs : 1 / (((3 : ℤ) : ℝ) - 1) * 6 = 3 := by norm_num
  rw [hrhs] at heq
  have hpos : (0 : ℝ) < n_eff [1 / 2, 3 / 2, 1, 1] - 1 := by linarith
  have h6 : (6 : ℝ) = 3 * (n_eff [1 / 2, 3 / 2, 1, 1] - 1) := by
    field_simp at heq
    linarith
  linarith

/-- Claim C5 amended: the unweighted-ensemble variance divides the total
squared deviation by `n_eff - 1`, where `n_eff` is the fractional effective
sample size itself (`unw_n_reps = n_eff`, line 198), not its floor and not
the physical unweighted list length. -/
theorem c5_variance_amended (W : List ℝ) (unwCoeffs : List ℝ) :
    unw_variances W unwCoeffs = sumSqDev unwCoeffs / (n_eff W - 1) := by
  unfold unw_variances
  rw [one_div, inv_mul_eq_div]

/-- Claim C8: an index is selected by `constr_op_nums` iff its KS statistic
is strictly above the KS threshold and its reduction is strictly above the
reduction threshold — the intersection of the two threshold-pass sets. -/
theorem c8_selectConstrained (ks red : List ℝ) (ksLvl redLvl : ℝ) (n : ℕ) :
    n ∈ constr_op_nums ks red ksLvl redLvl ↔
      (n < ks.length ∧ ksLvl < ks.getD n 0) ∧ (n < red.length ∧ redLvl < red.getD n 0) := by
  simp [constr_op_nums, ops_satisfy_ks, ops_satisfy_red, List.mem_inter_iff,
    List.mem_filter, List.mem_range]

/-- Claim C9: `reduction_poster` equals `max 0 (1 - post/prior)`, and for
non-negative standard deviations the result lies in `[0, 1]`. -/
theorem c9_stdDevReduction (r c : ℝ) (hr : 0 ≤ r) (hc : 0 ≤ c) :
    reduction_poster r c = max 0 (1 - c / r) ∧
      0 ≤ reduction_poster r c ∧ reduction_poster r c ≤ 1 := by
  have hmax : reduction_poster r c = max 0 (1 - c / r) := by
    unfold reduction_poster
    rcases lt_or_le (1 - c / r) 0 with h | h
    · rw [if_pos h, max_eq_left h.le]
    · rw [if_neg (not_lt.mpr h), max_eq_right h]
  refine ⟨hmax, ?_, ?_⟩
  · rw [hmax]; exact le_max_left 0 _
  · rw [hmax]
    have hdiv : 0 ≤ c / r := div_nonneg hc hr
    exact max_le (by norm_num) (by linarith)

/-- Witness for C9 at prior std-dev 2 and posterior std-dev 1. -/
theorem c9_stdDevReduction_witness :
    reduction_poster 2 1 = max 0 (1 - 1 / 2) ∧
      0 ≤ reduction_poster 2 1 ∧ reduction_poster 2 1 ≤ 1 :=
  c9_stdDevReduction 2 1 (by norm_num) (by norm_num)

/-- Claim C10: with at least two prior values that are not all equal, the
prior standard deviation is strictly positive (hence nonzero), so the
unguarded division in `reduction_poster` never divides by zero; the
computation is a total function with no zero check, as in the source. -/
theorem c10_no_zero_guard (xs : List ℝ) (h2 : 2 ≤ xs.length) (a b : ℝ)
    (ha : a ∈ xs) (hb : b ∈ xs) (hab : a ≠ b) :
    0 < prior_st_devs xs ∧ prior_st_devs xs ≠ 0 := by
  have hmem : ∃ x ∈ xs, x ≠ sampleMean xs := by
    by_contra h
    push_neg at h
    exact hab ((h a ha).trans (h b hb).symm)
  obtain ⟨x, hx, hxne⟩ := hmem
  have hterm : 0 < (x - sampleMean xs) ^ 2 := by
    have : x - sampleMean xs ≠ 0 := sub_ne_zero.mpr hxne
    positivity
  have hnonneg : ∀ y ∈ xs.map (fun z => (z - sampleMean xs) ^ 2), 0 ≤ y := by
    intro y hy
    obtain ⟨z, _, rfl⟩ := List.mem_map.mp hy
    positivity
  have hle : (x - sampleMean xs) ^ 2 ≤ (xs.map (fun z => (z - sampleMean xs) ^ 2)).sum :=
    List.single_le_sum hnonneg _ (List.mem_map_of_mem _ hx)
  have hss : 0 < sumSqDev xs := lt_of_lt_of_le hterm hle
  have hlen : (0 : ℝ) < (xs.length : ℝ) - 1 := by
    have : (2 : ℝ) ≤ (xs.length : ℝ) := by exact_mod_cast h2
    linarith
  have hvar : 0 < sample_variance xs := by
    unfold sample_variance
    positivity
  have hsd : 0 < prior_st_devs xs := Real.sqrt_pos.mpr hvar
  exact ⟨hsd, ne_of_gt hsd⟩

/-- Witness for C10 on the two-element prior value list `[0, 1]`. -/
theorem c10_no_zero_guard_witness :
    0 < prior_st_devs [0, 1] ∧ prior_st_devs [0, 1] ≠ 0 :=
  c10_no_zero_guard [0, 1] (by norm_num) 0 1 (by norm_num) (by norm_num) (by norm_num)

end BayesianRW
